import Mathlib

/-!
Verification development for the indexed-array (radix-trie) container whose
behaviour is specified in spec.md and exercised by lib/test_xarray.c.
The container implementation itself (lib/xarray.c, include/linux/xarray.h)
is not part of the source tree here, only its test suite is; the container
is therefore modelled from the specification, at the level of the abstract
data model the spec describes (entries covering power-of-two aligned index
ranges, per-entry tag sets, a cursor state machine, and a trie fragment for
the structural shrink scenario).
-/

namespace XarrayModel

/-- Modelled from the spec: the Entry sum type of section 3 of spec.md
(the tagged-pointer encoding of lib/xarray.c, which is absent from src/).
Values compare by value, pointers by identity (modelled as a numeric id);
node, retry, sibling and deleted are the internal-only variants. -/
inductive Entry : Type where
  | empty : Entry
  | value : Nat → Entry
  | pointer : Nat → Entry
  | node : Nat → Entry
  | retry : Entry
  | sibling : Nat → Entry
  | deleted : Entry

deriving instance DecidableEq for Entry

/-- Modelled from the spec: the three tags XA_TAG_0, XA_TAG_1, XA_TAG_2
used by the test suite (the tag-bitmap width is fixed at construction). -/
inductive XaTag : Type where
  | tag0 : XaTag
  | tag1 : XaTag
  | tag2 : XaTag

deriving instance DecidableEq for XaTag

/-- A set of tags attached to one (possibly multi-index) entry. -/
structure TagSet : Type where
  t0 : Bool
  t1 : Bool
  t2 : Bool

deriving instance DecidableEq for TagSet

def noTags : TagSet := ⟨false, false, false⟩

def tagGet (s : TagSet) (t : XaTag) : Bool :=
  match t with
  | .tag0 => s.t0
  | .tag1 => s.t1
  | .tag2 => s.t2

def tagAdd (s : TagSet) (t : XaTag) : TagSet :=
  match t with
  | .tag0 => ⟨true, s.t1, s.t2⟩
  | .tag1 => ⟨s.t0, true, s.t2⟩
  | .tag2 => ⟨s.t0, s.t1, true⟩

def tagUnion (a b : TagSet) : TagSet :=
  ⟨a.t0 || b.t0, a.t1 || b.t1, a.t2 || b.t2⟩

/-- Modelled from the spec: one logical (possibly multi-index) entry,
occupying the index range from base to base + 2 ^ order (exclusive); the
canonical slot holds the real entry and carries the tag set. -/
structure XRange : Type where
  base : Nat
  order : Nat
  entry : Entry
  tags : TagSet

deriving instance DecidableEq for XRange

/-- Modelled from the spec: the abstract state of the container, the list
of its live (canonical-slot) entries. lib/xarray.c is absent from src/, so
the radix-trie representation is abstracted to the index-to-entry mapping
the spec ascribes to it. -/
structure XArray : Type where
  ranges : List XRange

deriving instance DecidableEq for XArray

def xaEmptyArr : XArray := ⟨[]⟩

/-- Does range r cover index j. -/
def coversIdx (r : XRange) (j : Nat) : Bool :=
  decide (r.base ≤ j) && decide (j < r.base + 2 ^ r.order)

/-- Does range r intersect the index interval of base i and order o. -/
def overlapsB (r : XRange) (i o : Nat) : Bool :=
  decide (r.base < i + 2 ^ o) && decide (i < r.base + 2 ^ r.order)

/-- Modelled from the spec: load returns the current entry at index j, or
Empty; a multi-index entry is observed at every index it covers. -/
def xa_load (xa : XArray) (j : Nat) : Entry :=
  match xa.ranges.find? (fun r => coversIdx r j) with
  | some r => r.entry
  | none => .empty

/-- The union of the tag sets of a list of ranges. -/
def collectTags (l : List XRange) : TagSet :=
  l.foldr (fun r acc => tagUnion r.tags acc) noTags

/-- Modelled from the spec: ranged store. Replaces whatever covers the
interval of base i and order o; a larger entry partially overwritten is
split with its remainder left empty (spec section 4.2); storing a
non-empty entry over tagged entries gives it the union of their tags
(spec section 4.4, tag contract); storing Empty erases the range and its
tags. -/
def xa_store_order (xa : XArray) (i o : Nat) (e : Entry) : XArray :=
  if e = .empty then
    ⟨xa.ranges.filter (fun r => ! overlapsB r i o)⟩
  else
    ⟨⟨i, o, e, collectTags (xa.ranges.filter (fun r => overlapsB r i o))⟩ ::
      xa.ranges.filter (fun r => ! overlapsB r i o)⟩

/-- Modelled from the spec: single-index store; returns the previous entry
at the index together with the new state. -/
def xa_store (xa : XArray) (i : Nat) (e : Entry) : Entry × XArray :=
  (xa_load xa i, xa_store_order xa i 0 e)

/-- Modelled from the spec: erase is store of Empty at order 0. -/
def xa_erase (xa : XArray) (i : Nat) : Entry × XArray :=
  xa_store xa i .empty

/-- Modelled from the spec: the container reports empty when it holds no
entries. -/
def xa_empty (xa : XArray) : Bool :=
  xa.ranges.isEmpty

/-- Modelled from the spec: a tag query at index j observes the tag of the
entry covering j (at any covered index); an index holding no entry has all
tags false. -/
def xa_get_tag (xa : XArray) (j : Nat) (t : XaTag) : Bool :=
  match xa.ranges.find? (fun r => coversIdx r j) with
  | some r => tagGet r.tags t
  | none => false

/-- Add tag t to a range when it covers index j, leave it alone
otherwise. -/
def setTagFn (j : Nat) (t : XaTag) (r : XRange) : XRange :=
  if coversIdx r j then { r with tags := tagAdd r.tags t } else r

/-- Modelled from the spec: setting a tag on index j tags the entry
covering j; a no-op when j holds no entry (tags are properties of occupied
slots only). -/
def xa_set_tag (xa : XArray) (j : Nat) (t : XaTag) : XArray :=
  ⟨xa.ranges.map (setTagFn j t)⟩

/-- Modelled from the spec: the error taxonomy of section 7. -/
inductive XaError : Type where
  | alreadyOccupied : XaError
  | outOfMemory : XaError
  | indexOutOfRange : XaError

deriving instance DecidableEq for XaError

/-- Modelled from the spec: insert is like store but fails with
AlreadyOccupied, leaving the structure unchanged, if any slot in the
target range is already non-empty. -/
def xa_insert (xa : XArray) (i o : Nat) (e : Entry) :
    Except XaError Unit × XArray :=
  if xa.ranges.any (fun r => overlapsB r i o) then
    (.error .alreadyOccupied, xa)
  else
    (.ok (), xa_store_order xa i o e)

/-- Modelled from the spec: the equality rule entries are compared by in
compare-and-swap: values by value, pointers by identity; Empty equals
Empty. -/
def entry_eq : Entry → Entry → Bool
  | .empty, .empty => true
  | .value a, .value b => decide (a = b)
  | .pointer a, .pointer b => decide (a = b)
  | _, _ => false

/-- Modelled from the spec: compare-and-swap returns the current entry and
replaces it with the new one exactly when it equals the expected one under
the entry equality rule; a mismatch is a no-op, not an error. -/
def xa_cmpxchg (xa : XArray) (i : Nat) (old new : Entry) : Entry × XArray :=
  if entry_eq (xa_load xa i) old then
    (xa_load xa i, xa_store_order xa i 0 new)
  else
    (xa_load xa i, xa)

/-- Modelled from the spec: the two filters of find, any present entry or
an entry with a given tag set. -/
inductive XaFilter : Type where
  | present : XaFilter
  | tagged : XaTag → XaFilter

def matchesFilter (f : XaFilter) (r : XRange) : Bool :=
  match f with
  | .present => true
  | .tagged t => tagGet r.tags t

/-- The smallest index at or after k, at most bound, that range r
contributes to a find with filter f, if any. -/
def findCandidate (k bound : Nat) (f : XaFilter) (r : XRange) : Option Nat :=
  if decide (Nat.max r.base k ≤ bound) &&
     decide (Nat.max r.base k < r.base + 2 ^ r.order) &&
     matchesFilter f r then
    some (Nat.max r.base k)
  else
    none

/-- The minimum of a list of naturals, none when the list is empty. -/
def listMinN : List Nat → Option Nat
  | [] => none
  | x :: xs =>
    match listMinN xs with
    | none => some x
    | some m => some (Nat.min x m)

/-- Modelled from the spec: find scans forward from k (inclusive) up to
bound for the next index matching the filter, returning that index and the
entry there, or none when no index in range matches. -/
def xa_find (xa : XArray) (k bound : Nat) (f : XaFilter) :
    Option (Nat × Entry) :=
  match listMinN (xa.ranges.filterMap (findCandidate k bound f)) with
  | some m => some (m, xa_load xa m)
  | none => none

/-- Index j matches filter f: it holds an entry (present), or its entry
carries the tag (tagged). -/
def matchesAt (xa : XArray) (f : XaFilter) (j : Nat) : Bool :=
  match f with
  | .present => decide (xa_load xa j ≠ .empty)
  | .tagged t => xa_get_tag xa j t

/-- Two ranges intersect. -/
def rangesOverlap (a b : XRange) : Bool :=
  decide (a.base < b.base + 2 ^ b.order) && decide (b.base < a.base + 2 ^ a.order)

/-- r overlaps none of the ranges in the list. -/
def noOverlapAll (r : XRange) : List XRange → Bool
  | [] => true
  | s :: rest => (! rangesOverlap r s) && noOverlapAll r rest

/-- Well-formedness of a range list: entries are non-empty (Empty is never
stored as a live entry) and ranges are pairwise disjoint, as the store
operation maintains. -/
def wfRanges : List XRange → Bool
  | [] => true
  | r :: rest =>
    decide (r.entry ≠ Entry.empty) && noOverlapAll r rest && wfRanges rest

/-- Well-formed container state. -/
abbrev WF (xa : XArray) : Prop := wfRanges xa.ranges = true

/- ------------------------------------------------------------------ -/
/- Basic lemmas about coverage, overlap and well-formed lookups.       -/
/- ------------------------------------------------------------------ -/

theorem coversIdx_iff (r : XRange) (j : Nat) :
    coversIdx r j = true ↔ r.base ≤ j ∧ j < r.base + 2 ^ r.order := by
  simp [coversIdx]

theorem overlapsB_iff (r : XRange) (i o : Nat) :
    overlapsB r i o = true ↔ r.base < i + 2 ^ o ∧ i < r.base + 2 ^ r.order := by
  simp [overlapsB]

theorem rangesOverlap_iff (a b : XRange) :
    rangesOverlap a b = true ↔
      a.base < b.base + 2 ^ b.order ∧ b.base < a.base + 2 ^ a.order := by
  simp [rangesOverlap]

theorem overlap_of_covers (a b : XRange) (j : Nat)
    (ha : coversIdx a j = true) (hb : coversIdx b j = true) :
    rangesOverlap a b = true := by
  rw [coversIdx_iff] at ha hb
  rw [rangesOverlap_iff]
  omega

theorem overlaps_of_covers_mem (r : XRange) (i o j : Nat)
    (hc : coversIdx r j = true) (h1 : i ≤ j) (h2 : j < i + 2 ^ o) :
    overlapsB r i o = true := by
  rw [coversIdx_iff] at hc
  rw [overlapsB_iff]
  omega

theorem covers_base (r : XRange) : coversIdx r r.base = true := by
  rw [coversIdx_iff]
  have : 0 < 2 ^ r.order := Nat.pos_pow_of_pos _ (by omega)
  omega

theorem noOverlapAll_spec (r : XRange) (l : List XRange)
    (h : noOverlapAll r l = true) :
    ∀ s ∈ l, rangesOverlap r s = false := by
  induction l with
  | nil => intro s hs; cases hs
  | cons a rest ih =>
    simp only [noOverlapAll, Bool.and_eq_true, Bool.not_eq_true'] at h
    intro s hs
    rcases List.mem_cons.mp hs with rfl | hmem
    · exact h.1
    · exact ih h.2 s hmem

theorem wfRanges_cons (r : XRange) (l : List XRange)
    (h : wfRanges (r :: l) = true) :
    r.entry ≠ Entry.empty ∧ noOverlapAll r l = true ∧ wfRanges l = true := by
  simp only [wfRanges, Bool.and_eq_true, decide_eq_true_eq] at h
  exact ⟨h.1.1, h.1.2, h.2⟩

theorem entry_ne_empty_of_mem (l : List XRange) (r : XRange)
    (hwf : wfRanges l = true) (hr : r ∈ l) : r.entry ≠ Entry.empty := by
  induction l with
  | nil => cases hr
  | cons a rest ih =>
    have h := wfRanges_cons a rest hwf
    rcases List.mem_cons.mp hr with rfl | hmem
    · exact h.1
    · exact ih h.2.2 hmem

/-- Under well-formedness, the first range found covering an index is the
unique range covering it. -/
theorem find_covers_unique (l : List XRange) (r : XRange) (j : Nat)
    (hwf : wfRanges l = true) (hr : r ∈ l) (hc : coversIdx r j = true) :
    l.find? (fun s => coversIdx s j) = some r := by
  induction l with
  | nil => cases hr
  | cons a rest ih =>
    have h := wfRanges_cons a rest hwf
    rcases List.mem_cons.mp hr with rfl | hmem
    · exact List.find?_cons_of_pos _ hc
    · cases hca : coversIdx a j with
      | false =>
        rw [List.find?_cons_of_neg _ (by simp [hca])]
        exact ih h.2.2 hmem
      | true =>
        exfalso
        have hov := overlap_of_covers a r j hca hc
        have := noOverlapAll_spec a rest h.2.1 r hmem
        rw [this] at hov
        cases hov

theorem xa_load_of_mem (xa : XArray) (r : XRange) (j : Nat)
    (hwf : WF xa) (hr : r ∈ xa.ranges) (hc : coversIdx r j = true) :
    xa_load xa j = r.entry := by
  unfold xa_load
  rw [find_covers_unique xa.ranges r j hwf hr hc]

theorem xa_get_tag_of_mem (xa : XArray) (r : XRange) (j : Nat) (t : XaTag)
    (hwf : WF xa) (hr : r ∈ xa.ranges) (hc : coversIdx r j = true) :
    xa_get_tag xa j t = tagGet r.tags t := by
  unfold xa_get_tag
  rw [find_covers_unique xa.ranges r j hwf hr hc]

theorem load_ne_empty_iff (xa : XArray) (j : Nat) (hwf : WF xa) :
    xa_load xa j ≠ Entry.empty ↔ ∃ r ∈ xa.ranges, coversIdx r j = true := by
  constructor
  · intro h
    unfold xa_load at h
    cases hf : xa.ranges.find? (fun s => coversIdx s j) with
    | none => rw [hf] at h; exact absurd rfl h
    | some r =>
      have hc := List.find?_some hf
      exact ⟨r, List.mem_of_find?_eq_some hf, hc⟩
  · rintro ⟨r, hr, hc⟩
    rw [xa_load_of_mem xa r j hwf hr hc]
    exact entry_ne_empty_of_mem xa.ranges r hwf hr

theorem get_tag_iff (xa : XArray) (j : Nat) (t : XaTag) (hwf : WF xa) :
    xa_get_tag xa j t = true ↔
      ∃ r ∈ xa.ranges, coversIdx r j = true ∧ tagGet r.tags t = true := by
  constructor
  · intro h
    unfold xa_get_tag at h
    cases hf : xa.ranges.find? (fun s => coversIdx s j) with
    | none => rw [hf] at h; cases h
    | some r =>
      rw [hf] at h
      have hc := List.find?_some hf
      exact ⟨r, List.mem_of_find?_eq_some hf, hc, h⟩
  · rintro ⟨r, hr, hc, ht⟩
    rw [xa_get_tag_of_mem xa r j t hwf hr hc]
    exact ht

/-- No range kept by a store covers an index inside the stored interval. -/
theorem kept_no_cover (l : List XRange) (i o j : Nat)
    (h1 : i ≤ j) (h2 : j < i + 2 ^ o) :
    (l.filter (fun r => ! overlapsB r i o)).find?
      (fun r => coversIdx r j) = none := by
  rw [List.find?_eq_none]
  intro r hr
  have hmem := List.mem_filter.mp hr
  simp only [Bool.not_eq_true', Bool.not_eq_true]
  cases hc : coversIdx r j with
  | false => rfl
  | true =>
    exfalso
    have hov := overlaps_of_covers_mem r i o j hc h1 h2
    rw [hov] at hmem
    simp at hmem

/-- Loading inside the interval of a store observes the stored entry. -/
theorem load_store_in_range (xa : XArray) (i o : Nat) (e : Entry) (j : Nat)
    (h1 : i ≤ j) (h2 : j < i + 2 ^ o) :
    xa_load (xa_store_order xa i o e) j = e := by
  by_cases he : e = Entry.empty
  · subst he
    unfold xa_store_order xa_load
    rw [if_pos rfl]
    simp only
    rw [kept_no_cover xa.ranges i o j h1 h2]
  · unfold xa_store_order xa_load
    rw [if_neg he]
    simp only
    rw [List.find?_cons_of_pos]
    rw [coversIdx_iff]
    exact ⟨h1, h2⟩

theorem entry_eq_empty_left (v : Entry) (hv : v ≠ Entry.empty) :
    entry_eq Entry.empty v = false := by
  cases v with
  | empty => exact absurd rfl hv
  | value a => rfl
  | pointer a => rfl
  | node a => rfl
  | retry => rfl
  | sibling a => rfl
  | deleted => rfl

/- ------------------------------------------------------------------ -/
/- Claim theorems.                                                     -/
/- ------------------------------------------------------------------ -/

/-- C1: after store(i, o, v) with i aligned to 2 ^ o, load(j) returns v
for every j in the covered interval (in particular the order-0 round trip
holds), and load(i + 2 ^ o) returns v only if that index already held v
before the store (it was independently set to an equal value). -/
theorem multi_store_coverage (xa : XArray) (i o : Nat) (v : Entry) (j : Nat)
    (hwf : WF xa) (hv : v ≠ Entry.empty) (halign : i % 2 ^ o = 0)
    (h1 : i ≤ j) (h2 : j < i + 2 ^ o) :
    xa_load (xa_store_order xa i o v) j = v ∧
    (xa_load (xa_store_order xa i o v) (i + 2 ^ o) = v →
      xa_load xa (i + 2 ^ o) = v) ∧
    xa_load (xa_store_order xa i 0 v) i = v := by
  refine ⟨load_store_in_range xa i o v j h1 h2, ?_, ?_⟩
  · intro hafter
    unfold xa_store_order xa_load at hafter
    rw [if_neg hv] at hafter
    simp only at hafter
    rw [List.find?_cons_of_neg] at hafter
    · cases hf : (xa.ranges.filter (fun r => ! overlapsB r i o)).find?
          (fun r => coversIdx r (i + 2 ^ o)) with
      | none =>
        rw [hf] at hafter
        exact absurd hafter.symm hv
      | some r =>
        rw [hf] at hafter
        have hmem := List.mem_of_mem_filter (List.mem_of_find?_eq_some hf)
        have hc := List.find?_some hf
        rw [xa_load_of_mem xa r (i + 2 ^ o) hwf hmem hc]
        exact hafter
    · simp [coversIdx]
  · exact load_store_in_range xa i 0 v i (by omega) (by omega)

/-- Witness for C1 at a concrete input. -/
theorem multi_store_coverage_witness :
    (WF xaEmptyArr ∧ Entry.value 7 ≠ Entry.empty ∧ 4 % 2 ^ 1 = 0 ∧
      4 ≤ 5 ∧ 5 < 4 + 2 ^ 1) ∧
    (xa_load (xa_store_order xaEmptyArr 4 1 (Entry.value 7)) 5 =
        Entry.value 7 ∧
      (xa_load (xa_store_order xaEmptyArr 4 1 (Entry.value 7)) (4 + 2 ^ 1) =
          Entry.value 7 →
        xa_load xaEmptyArr (4 + 2 ^ 1) = Entry.value 7) ∧
      xa_load (xa_store_order xaEmptyArr 4 0 (Entry.value 7)) 4 =
        Entry.value 7) :=
  ⟨⟨by decide, by decide, by decide, by decide, by decide⟩,
    multi_store_coverage xaEmptyArr 4 1 (Entry.value 7) 5 (by decide)
      (by decide) (by decide) (by decide) (by decide)⟩

/-- C2: compare_and_swap(i, old, new) returns the entry currently stored
at i; when the current entry equals old under the entry equality rule it
is replaced by new (a subsequent load observes new), otherwise the state
is completely unchanged, with no error. -/
theorem cmpxchg_spec (xa : XArray) (i : Nat) (old new : Entry) :
    (xa_cmpxchg xa i old new).1 = xa_load xa i ∧
    (if entry_eq (xa_load xa i) old then
        xa_load (xa_cmpxchg xa i old new).2 i = new
      else
        (xa_cmpxchg xa i old new).2 = xa) := by
  cases h : entry_eq (xa_load xa i) old with
  | false =>
    have hfst : (xa_cmpxchg xa i old new).1 = xa_load xa i := by
      unfold xa_cmpxchg
      rw [h]
      simp
    have hsnd : (xa_cmpxchg xa i old new).2 = xa := by
      unfold xa_cmpxchg
      rw [h]
      simp
    rw [if_neg (by simp)]
    exact ⟨hfst, hsnd⟩
  | true =>
    have hfst : (xa_cmpxchg xa i old new).1 = xa_load xa i := by
      unfold xa_cmpxchg
      rw [h]
      simp
    have hsnd : (xa_cmpxchg xa i old new).2 = xa_store_order xa i 0 new := by
      unfold xa_cmpxchg
      rw [h]
      simp
    rw [if_pos rfl]
    refine ⟨hfst, ?_⟩
    rw [hsnd]
    exact load_store_in_range xa i 0 new i (Nat.le_refl i) (by omega)

/-- C3: when the target interval of insert already holds a non-empty
entry, the insert fails with AlreadyOccupied and the container is
unchanged: every load observes the same entry as before. -/
theorem insert_occupied (xa : XArray) (i o : Nat) (e : Entry) (j : Nat)
    (h1 : i ≤ j) (h2 : j < i + 2 ^ o) (hne : xa_load xa j ≠ Entry.empty) :
    (xa_insert xa i o e).1 = Except.error XaError.alreadyOccupied ∧
    (xa_insert xa i o e).2 = xa ∧
    ∀ m, xa_load (xa_insert xa i o e).2 m = xa_load xa m := by
  have hany : xa.ranges.any (fun r => overlapsB r i o) = true := by
    unfold xa_load at hne
    cases hf : xa.ranges.find? (fun r => coversIdx r j) with
    | none => rw [hf] at hne; exact absurd rfl hne
    | some r =>
      have hmem := List.mem_of_find?_eq_some hf
      have hc := List.find?_some hf
      rw [List.any_eq_true]
      exact ⟨r, hmem, overlaps_of_covers_mem r i o j hc h1 h2⟩
  unfold xa_insert
  rw [hany]
  exact ⟨rfl, rfl, fun m => rfl⟩

/-- Witness for C3 at a concrete input. -/
theorem insert_occupied_witness :
    (2 ≤ 3 ∧ 3 < 2 + 2 ^ 1 ∧
      xa_load (xa_store_order xaEmptyArr 3 0 (Entry.value 9)) 3 ≠
        Entry.empty) ∧
    ((xa_insert (xa_store_order xaEmptyArr 3 0 (Entry.value 9)) 2 1
        (Entry.value 1)).1 = Except.error XaError.alreadyOccupied ∧
      (xa_insert (xa_store_order xaEmptyArr 3 0 (Entry.value 9)) 2 1
        (Entry.value 1)).2 = xa_store_order xaEmptyArr 3 0 (Entry.value 9) ∧
      ∀ m, xa_load (xa_insert (xa_store_order xaEmptyArr 3 0 (Entry.value 9))
          2 1 (Entry.value 1)).2 m =
        xa_load (xa_store_order xaEmptyArr 3 0 (Entry.value 9)) m) :=
  ⟨⟨by decide, by decide, by decide⟩,
    insert_occupied (xa_store_order xaEmptyArr 3 0 (Entry.value 9)) 2 1
      (Entry.value 1) 3 (by decide) (by decide) (by decide)⟩

/-- C9: store(i, o, Empty) on an aligned range erases every covered index
(load returns Empty there afterwards), and when the container held no
entry outside the range it reports empty afterwards; no assumption is made
on the canonical first slot of the range being occupied. -/
theorem multi_store_erase (xa : XArray) (i o j : Nat)
    (hwf : WF xa) (halign : i % 2 ^ o = 0)
    (h1 : i ≤ j) (h2 : j < i + 2 ^ o) :
    xa_load (xa_store_order xa i o Entry.empty) j = Entry.empty ∧
    ((∀ k, xa_load xa k ≠ Entry.empty → i ≤ k ∧ k < i + 2 ^ o) →
      xa_empty (xa_store_order xa i o Entry.empty) = true) := by
  refine ⟨load_store_in_range xa i o Entry.empty j h1 h2, ?_⟩
  intro hall
  unfold xa_store_order xa_empty
  rw [if_pos rfl]
  simp only [List.isEmpty_iff]
  rw [List.filter_eq_nil_iff]
  intro r hr
  have hne : xa_load xa r.base ≠ Entry.empty := by
    rw [xa_load_of_mem xa r r.base hwf hr (covers_base r)]
    exact entry_ne_empty_of_mem xa.ranges r hwf hr
  have hb := hall r.base hne
  simp only [Bool.not_eq_true', Bool.not_eq_true, Bool.not_eq_false]
  rw [overlapsB_iff]
  have : 0 < 2 ^ r.order := Nat.pos_pow_of_pos _ (by omega)
  omega

/-- Witness for C9 at a concrete input: the first slot of the erased range
is empty and only interior indices hold entries. -/
theorem multi_store_erase_witness :
    (WF (xa_store_order (xa_store_order xaEmptyArr 1 0 (Entry.value 1))
        2 0 (Entry.value 2)) ∧ 0 % 2 ^ 2 = 0 ∧ 0 ≤ 1 ∧ 1 < 0 + 2 ^ 2) ∧
    (xa_load (xa_store_order (xa_store_order (xa_store_order xaEmptyArr
          1 0 (Entry.value 1)) 2 0 (Entry.value 2)) 0 2 Entry.empty) 1 =
        Entry.empty ∧
      ((∀ k, xa_load (xa_store_order (xa_store_order xaEmptyArr
            1 0 (Entry.value 1)) 2 0 (Entry.value 2)) k ≠ Entry.empty →
          0 ≤ k ∧ k < 0 + 2 ^ 2) →
        xa_empty (xa_store_order (xa_store_order (xa_store_order xaEmptyArr
          1 0 (Entry.value 1)) 2 0 (Entry.value 2)) 0 2 Entry.empty) =
          true)) :=
  ⟨⟨by decide, by decide, by decide, by decide⟩,
    multi_store_erase (xa_store_order (xa_store_order xaEmptyArr
        1 0 (Entry.value 1)) 2 0 (Entry.value 2)) 0 2 1
      (by decide) (by decide) (by decide) (by decide)⟩

/-- C10: at an index holding no entry, compare_and_swap(i, Empty, v) with
non-empty v succeeds, returning Empty, and a subsequent load observes v;
compare_and_swap(i, w, Empty) with non-empty w is a no-op returning Empty,
leaving the index unoccupied. -/
theorem cmpxchg_empty_slot (xa : XArray) (i : Nat) (v w : Entry)
    (h : xa_load xa i = Entry.empty) (hv : v ≠ Entry.empty)
    (hw : w ≠ Entry.empty) :
    (xa_cmpxchg xa i Entry.empty v).1 = Entry.empty ∧
    xa_load (xa_cmpxchg xa i Entry.empty v).2 i = v ∧
    (xa_cmpxchg xa i w Entry.empty).1 = Entry.empty ∧
    (xa_cmpxchg xa i w Entry.empty).2 = xa ∧
    xa_load (xa_cmpxchg xa i w Entry.empty).2 i = Entry.empty := by
  have heq : entry_eq (xa_load xa i) Entry.empty = true := by
    rw [h]; rfl
  have hne : entry_eq (xa_load xa i) w = false := by
    rw [h]; exact entry_eq_empty_left w hw
  unfold xa_cmpxchg
  rw [heq, hne]
  simp only [if_true, if_false]
  refine ⟨h, ?_, h, rfl, h⟩
  exact load_store_in_range xa i 0 v i (Nat.le_refl i) (by omega)

/-- Witness for C10 at a concrete input. -/
theorem cmpxchg_empty_slot_witness :
    (xa_load xaEmptyArr 5 = Entry.empty ∧ Entry.value 1 ≠ Entry.empty ∧
      Entry.value 2 ≠ Entry.empty) ∧
    ((xa_cmpxchg xaEmptyArr 5 Entry.empty (Entry.value 1)).1 =
        Entry.empty ∧
      xa_load (xa_cmpxchg xaEmptyArr 5 Entry.empty (Entry.value 1)).2 5 =
        Entry.value 1 ∧
      (xa_cmpxchg xaEmptyArr 5 (Entry.value 2) Entry.empty).1 =
        Entry.empty ∧
      (xa_cmpxchg xaEmptyArr 5 (Entry.value 2) Entry.empty).2 =
        xaEmptyArr ∧
      xa_load (xa_cmpxchg xaEmptyArr 5 (Entry.value 2) Entry.empty).2 5 =
        Entry.empty) :=
  ⟨⟨by decide, by decide, by decide⟩,
    cmpxchg_empty_slot xaEmptyArr 5 (Entry.value 1) (Entry.value 2)
      (by decide) (by decide) (by decide)⟩

/- ------------------------------------------------------------------ -/
/- Cursor state machine (spec section 4.3) and claim C7.               -/
/- ------------------------------------------------------------------ -/

/-- Modelled from the spec: the special cursor position values of section
4.3 — restart-requested, out-of-bounds, and a successful position. -/
inductive XasPos : Type where
  | restart : XasPos
  | bounds : XasPos
  | positioned : XasPos

deriving instance DecidableEq for XasPos

/-- The maximum representable index: the index domain is a full unsigned
machine word. -/
def ULONG_MAX : Nat := 2 ^ 64 - 1

/-- Modelled from the spec: the cursor, reduced to its target index and
position state. -/
structure XaCursor : Type where
  index : Nat
  pos : XasPos

deriving instance DecidableEq for XaCursor

/-- Modelled from the spec: advance the cursor to the next index and
return the entry there; crossing the maximum representable index
transitions to Bounds, and a further advance from Bounds wraps to index 0,
returning the entry stored there (spec section 4.3). -/
def xas_next (xa : XArray) (c : XaCursor) : Entry × XaCursor :=
  match c.pos with
  | .restart => (xa_load xa c.index, ⟨c.index, .positioned⟩)
  | .bounds => (xa_load xa 0, ⟨0, .positioned⟩)
  | .positioned =>
    if c.index = ULONG_MAX then
      (.empty, ⟨c.index, .bounds⟩)
    else
      (xa_load xa (c.index + 1), ⟨c.index + 1, .positioned⟩)

/-- Modelled from the spec: move the cursor to the previous index;
crossing index 0 transitions to Bounds, and a further step from Bounds
wraps to the maximum index, returning the entry stored there. -/
def xas_prev (xa : XArray) (c : XaCursor) : Entry × XaCursor :=
  match c.pos with
  | .restart => (xa_load xa c.index, ⟨c.index, .positioned⟩)
  | .bounds => (xa_load xa ULONG_MAX, ⟨ULONG_MAX, .positioned⟩)
  | .positioned =>
    if c.index = 0 then
      (.empty, ⟨c.index, .bounds⟩)
    else
      (xa_load xa (c.index - 1), ⟨c.index - 1, .positioned⟩)

/-- C7: advancing past the maximum representable index puts the cursor in
the Bounds state and a further advance wraps to index 0, returning the
entry stored there; symmetrically, stepping back past index 0 reaches
Bounds and a further step wraps to the maximum index, returning the entry
stored there. -/
theorem cursor_wraparound (xa : XArray) (c d : XaCursor)
    (hc : c.pos = XasPos.positioned) (hcm : c.index = ULONG_MAX)
    (hd : d.pos = XasPos.positioned) (hdm : d.index = 0) :
    (xas_next xa c).2.pos = XasPos.bounds ∧
    (xas_next xa c).2.index = ULONG_MAX ∧
    xas_next xa (xas_next xa c).2 =
      (xa_load xa 0, ⟨0, XasPos.positioned⟩) ∧
    (xas_prev xa d).2.pos = XasPos.bounds ∧
    (xas_prev xa d).2.index = 0 ∧
    xas_prev xa (xas_prev xa d).2 =
      (xa_load xa ULONG_MAX, ⟨ULONG_MAX, XasPos.positioned⟩) := by
  obtain ⟨ci, cp⟩ := c
  obtain ⟨di, dp⟩ := d
  simp only at hc hcm hd hdm
  subst hc hcm hd hdm
  refine ⟨rfl, rfl, rfl, ?_, ?_, ?_⟩ <;> simp [xas_prev]

/-- Witness for C7 at a concrete input. -/
theorem cursor_wraparound_witness :
    ((⟨ULONG_MAX, XasPos.positioned⟩ : XaCursor).pos = XasPos.positioned ∧
      (⟨ULONG_MAX, XasPos.positioned⟩ : XaCursor).index = ULONG_MAX ∧
      (⟨0, XasPos.positioned⟩ : XaCursor).pos = XasPos.positioned ∧
      (⟨0, XasPos.positioned⟩ : XaCursor).index = 0) ∧
    ((xas_next xaEmptyArr ⟨ULONG_MAX, XasPos.positioned⟩).2.pos =
        XasPos.bounds ∧
      (xas_next xaEmptyArr ⟨ULONG_MAX, XasPos.positioned⟩).2.index =
        ULONG_MAX ∧
      xas_next xaEmptyArr
          (xas_next xaEmptyArr ⟨ULONG_MAX, XasPos.positioned⟩).2 =
        (xa_load xaEmptyArr 0, ⟨0, XasPos.positioned⟩) ∧
      (xas_prev xaEmptyArr ⟨0, XasPos.positioned⟩).2.pos = XasPos.bounds ∧
      (xas_prev xaEmptyArr ⟨0, XasPos.positioned⟩).2.index = 0 ∧
      xas_prev xaEmptyArr
          (xas_prev xaEmptyArr ⟨0, XasPos.positioned⟩).2 =
        (xa_load xaEmptyArr ULONG_MAX, ⟨ULONG_MAX, XasPos.positioned⟩)) :=
  ⟨⟨rfl, rfl, rfl, rfl⟩,
    cursor_wraparound xaEmptyArr ⟨ULONG_MAX, XasPos.positioned⟩
      ⟨0, XasPos.positioned⟩ rfl rfl rfl rfl⟩

/- ------------------------------------------------------------------ -/
/- Single-chunk trie fragment for the shrink scenario (claim C8).      -/
/- ------------------------------------------------------------------ -/

/-- The node fanout of the trie (64-way, spec section 2). -/
def FANOUT : Nat := 64

/-- Modelled from the spec: the container head's root entry — empty, a
direct entry, or an allocated node of FANOUT slots; restricted to one trie
level (indices below FANOUT), the shape the spec's shrink scenario
exercises. lib/xarray.c is absent from src/, so this structural fragment
follows spec sections 3 and 4.2. -/
inductive XaRoot : Type where
  | empty : XaRoot
  | direct : Entry → XaRoot
  | node : List Entry → XaRoot

deriving instance DecidableEq for XaRoot

/-- Modelled from the spec: a single-chunk trie together with the final
slot contents of every node unlinked by a shrink (the deferred-reclamation
log); after unlinking, a writer may only overwrite a slot with the Retry
sentinel. -/
structure ShrinkXa : Type where
  root : XaRoot
  freed : List (List Entry)

deriving instance DecidableEq for ShrinkXa

def emptySlots : List Entry := List.replicate FANOUT Entry.empty

/-- All slots after slot 0 are empty. -/
def tailAllEmpty (s : List Entry) : Bool :=
  (s.drop 1).all (fun e => decide (e = Entry.empty))

/-- Modelled from the spec: store at one index of the single-chunk trie.
A store beyond index 0 of a direct root allocates a node holding the old
root entry in slot 0 (descend-and-extend); an erase leaving the node with
at most its slot-0 entry shrinks the node away: the root is rewritten to
point directly at the remaining entry (or Empty), and slot 0 of the
unlinked node — the slot whose entry was relocated — is overwritten with
the Retry sentinel before the node goes to deferred reclamation. -/
def sStore (a : ShrinkXa) (i : Nat) (v : Entry) : ShrinkXa :=
  match a.root with
  | .empty =>
    if v = Entry.empty then a
    else if i = 0 then ⟨.direct v, a.freed⟩
    else ⟨.node (emptySlots.set i v), a.freed⟩
  | .direct e =>
    if i = 0 then
      (if v = Entry.empty then ⟨.empty, a.freed⟩ else ⟨.direct v, a.freed⟩)
    else if v = Entry.empty then a
    else ⟨.node ((emptySlots.set 0 e).set i v), a.freed⟩
  | .node s =>
    if v = Entry.empty then
      (if tailAllEmpty (s.set i v) then
        (match (s.set i v).headD Entry.empty with
          | .empty => ⟨.empty, ((s.set i v).set 0 Entry.retry) :: a.freed⟩
          | e0 => ⟨.direct e0, ((s.set i v).set 0 Entry.retry) :: a.freed⟩)
      else ⟨.node (s.set i v), a.freed⟩)
    else ⟨.node (s.set i v), a.freed⟩

/-- Load from the single-chunk trie. -/
def sLoad (a : ShrinkXa) (i : Nat) : Entry :=
  match a.root with
  | .empty => Entry.empty
  | .direct e => if i = 0 then e else Entry.empty
  | .node s => s.getD i Entry.empty

/-- Iteration over the single-chunk trie: the present (index, entry)
pairs in increasing index order. -/
def sIter (a : ShrinkXa) : List (Nat × Entry) :=
  (List.range FANOUT).filterMap (fun i =>
    if sLoad a i = Entry.empty then none else some (i, sLoad a i))

/-- The spec's shrink scenario: store at 0, store at 1, erase 1. -/
def shrinkScenario : ShrinkXa :=
  sStore (sStore (sStore ⟨.empty, []⟩ 0 (Entry.value 0)) 1 (Entry.value 1))
    1 Entry.empty

/-- A container that only ever stored index 0. -/
def shrinkReference : ShrinkXa := sStore ⟨.empty, []⟩ 0 (Entry.value 0)

/-- C8: storing at indices 0 and 1 of an empty container and then erasing
index 1 collapses the tree: index 0's entry is directly reachable from the
root; exactly one node was unlinked and every one of its slots is either
the Retry sentinel (slot 0, whose entry was relocated) or untouched Empty,
never a live value a stale reader could mistake for current content; and
the result is indistinguishable by load and by iteration from a container
that only ever stored index 0. -/
theorem shrink_scenario_spec :
    shrinkScenario.root = XaRoot.direct (Entry.value 0) ∧
    shrinkScenario.freed =
      [(List.replicate FANOUT Entry.empty).set 0 Entry.retry] ∧
    (∀ ns ∈ shrinkScenario.freed, ∀ e ∈ ns,
      e = Entry.retry ∨ e = Entry.empty) ∧
    (∀ i, sLoad shrinkScenario i = sLoad shrinkReference i) ∧
    sIter shrinkScenario = sIter shrinkReference := by
  refine ⟨by decide, by decide, by decide, ?_, by decide⟩
  intro i
  have h : shrinkScenario.root = shrinkReference.root := by decide
  unfold sLoad
  rw [h]

/- ------------------------------------------------------------------ -/
/- Tag lemmas and claims C5, C6.                                       -/
/- ------------------------------------------------------------------ -/

theorem tagGet_tagAdd_self (s : TagSet) (t : XaTag) :
    tagGet (tagAdd s t) t = true := by
  cases t <;> rfl

theorem tagGet_tagAdd_other (s : TagSet) (t t2 : XaTag) (h : t2 ≠ t) :
    tagGet (tagAdd s t) t2 = tagGet s t2 := by
  cases t <;> cases t2 <;> first | rfl | exact absurd rfl h

theorem tagGet_tagUnion (a b : TagSet) (t : XaTag) :
    tagGet (tagUnion a b) t = (tagGet a t || tagGet b t) := by
  cases t <;> rfl

theorem tagGet_noTags (t : XaTag) : tagGet noTags t = false := by
  cases t <;> rfl

theorem tagGet_collectTags (l : List XRange) (t : XaTag) :
    tagGet (collectTags l) t = l.any (fun r => tagGet r.tags t) := by
  induction l with
  | nil => cases t <;> rfl
  | cons a rest ih =>
    show tagGet (tagUnion a.tags (collectTags rest)) t = _
    rw [tagGet_tagUnion, ih, List.any_cons]

theorem find_covers_cons_pos (r : XRange) (l : List XRange) (j : Nat)
    (h : coversIdx r j = true) :
    (r :: l).find? (fun s => coversIdx s j) = some r :=
  List.find?_cons_of_pos l h

theorem find_covers_cons_neg (r : XRange) (l : List XRange) (j : Nat)
    (h : coversIdx r j = false) :
    (r :: l).find? (fun s => coversIdx s j) =
      l.find? (fun s => coversIdx s j) :=
  List.find?_cons_of_neg l (by simp [h])

theorem setTagFn_covers (j : Nat) (t : XaTag) (r : XRange) (m : Nat) :
    coversIdx (setTagFn j t r) m = coversIdx r m := by
  unfold setTagFn
  split
  · rfl
  · rfl

theorem find?_map_setTagFn (l : List XRange) (j m : Nat) (t : XaTag) :
    (l.map (setTagFn j t)).find? (fun r => coversIdx r m) =
      Option.map (setTagFn j t) (l.find? (fun r => coversIdx r m)) := by
  induction l with
  | nil => rfl
  | cons a rest ih =>
    cases hc : coversIdx a m with
    | true =>
      rw [List.map_cons,
        find_covers_cons_pos (setTagFn j t a) (rest.map (setTagFn j t)) m
          (by rw [setTagFn_covers]; exact hc),
        find_covers_cons_pos a rest m hc]
      rfl
    | false =>
      rw [List.map_cons,
        find_covers_cons_neg (setTagFn j t a) (rest.map (setTagFn j t)) m
          (by rw [setTagFn_covers]; exact hc),
        find_covers_cons_neg a rest m hc, ih]

theorem map_setTagFn_id (l : List XRange) (i : Nat) (t : XaTag)
    (h : ∀ r ∈ l, coversIdx r i = false) : l.map (setTagFn i t) = l := by
  induction l with
  | nil => rfl
  | cons a rest ih =>
    rw [List.map_cons, ih (fun r hr => h r (List.mem_cons_of_mem a hr))]
    have ha := h a (List.mem_cons_self a rest)
    unfold setTagFn
    rw [ha]
    simp

/-- Every range kept by a non-empty filter on no-overlap has no overlap
with the stored interval, so refiltering for overlap yields nothing. -/
theorem filter_overlap_of_kept (l : List XRange) (i o : Nat) :
    ((l.filter (fun r => ! overlapsB r i o)).filter
      (fun r => overlapsB r i o)) = [] := by
  rw [List.filter_eq_nil_iff]
  intro r hr
  have hmem := List.mem_filter.mp hr
  simp only [Bool.not_eq_true'] at hmem
  simp [hmem.2]

/-- C5 counterexample: the claim that setting a tag on index i never sets
that tag on i + 1 fails when one multi-index entry covers both indices —
with an order-1 entry at base 0, the tag set at index 0 is observed at
index 1 (as the multi-index tag contract of C6 requires). -/
theorem tag_neighbor_cex :
    xa_get_tag (xa_store_order xaEmptyArr 0 1 (Entry.value 5)) 1
        XaTag.tag0 = false ∧
    xa_load (xa_store_order xaEmptyArr 0 1 (Entry.value 5)) 1 ≠
      Entry.empty ∧
    xa_get_tag
        (xa_set_tag (xa_store_order xaEmptyArr 0 1 (Entry.value 5)) 0
          XaTag.tag0) 1 XaTag.tag0 = true := by
  decide

/-- C5 (amended): setting a tag on an index holding no entry is a no-op
and the tag reads false; setting a tag on index i does not set that tag on
any index j not covered by the same entry as i (in particular on i - 1 and
i + 1 when these are not part of one multi-index entry with i), and does
not set any other tag on i; storing Empty at i clears all tags of i, and
after the slot is made non-empty again every tag of i still reads false
until explicitly re-set. -/
theorem tag_independence (xa : XArray) (i j : Nat) (t t2 : XaTag)
    (hwf : WF xa) (hne : t2 ≠ t)
    (hsep : ∀ r ∈ xa.ranges,
      ¬(coversIdx r i = true ∧ coversIdx r j = true)) :
    (xa_load xa i = Entry.empty →
      xa_set_tag xa i t = xa ∧
      xa_get_tag (xa_set_tag xa i t) i t = false) ∧
    xa_get_tag (xa_set_tag xa i t) j t = xa_get_tag xa j t ∧
    xa_get_tag (xa_set_tag xa i t) i t2 = xa_get_tag xa i t2 ∧
    xa_get_tag (xa_store_order xa i 0 Entry.empty) i t = false ∧
    (∀ v, v ≠ Entry.empty →
      xa_get_tag (xa_store_order (xa_store_order xa i 0 Entry.empty) i 0 v)
        i t = false) := by
  refine ⟨?_, ?_, ?_, ?_, ?_⟩
  · intro hempty
    have hnc : ∀ r ∈ xa.ranges, coversIdx r i = false := by
      intro r hr
      cases hc : coversIdx r i with
      | false => rfl
      | true =>
        exfalso
        have : xa_load xa i ≠ Entry.empty :=
          (load_ne_empty_iff xa i hwf).mpr ⟨r, hr, hc⟩
        exact this hempty
    have hid : xa_set_tag xa i t = xa := by
      unfold xa_set_tag
      rw [map_setTagFn_id xa.ranges i t hnc]
    refine ⟨hid, ?_⟩
    rw [hid]
    unfold xa_get_tag
    rw [List.find?_eq_none.mpr (fun r hr => by simp [hnc r hr])]
  · unfold xa_get_tag xa_set_tag
    simp only
    rw [find?_map_setTagFn]
    cases hf : xa.ranges.find? (fun r => coversIdx r j) with
    | none => rfl
    | some r =>
      have hmem := List.mem_of_find?_eq_some hf
      have hcj := List.find?_some hf
      have hci : coversIdx r i = false := by
        cases h2 : coversIdx r i with
        | false => rfl
        | true => exact absurd ⟨h2, hcj⟩ (hsep r hmem)
      show tagGet (setTagFn i t r).tags t = tagGet r.tags t
      unfold setTagFn
      rw [hci]
      simp
  · unfold xa_get_tag xa_set_tag
    simp only
    rw [find?_map_setTagFn]
    cases hf : xa.ranges.find? (fun r => coversIdx r i) with
    | none => rfl
    | some r =>
      show tagGet (setTagFn i t r).tags t2 = tagGet r.tags t2
      unfold setTagFn
      split
      · exact tagGet_tagAdd_other r.tags t t2 hne
      · rfl
  · unfold xa_store_order xa_get_tag
    rw [if_pos rfl]
    simp only
    rw [kept_no_cover xa.ranges i 0 i (Nat.le_refl i) (by omega)]
  · intro v hv
    unfold xa_store_order xa_get_tag
    rw [if_pos rfl, if_neg hv]
    simp only
    rw [find_covers_cons_pos _ _ i (by simp [coversIdx])]
    show tagGet (collectTags _) t = false
    rw [filter_overlap_of_kept]
    exact tagGet_noTags t

/-- Witness for the amended C5 at a concrete input. -/
theorem tag_independence_witness :
    (WF (xa_store_order xaEmptyArr 4 0 (Entry.value 4)) ∧
      XaTag.tag1 ≠ XaTag.tag0 ∧
      (∀ r ∈ (xa_store_order xaEmptyArr 4 0 (Entry.value 4)).ranges,
        ¬(coversIdx r 4 = true ∧ coversIdx r 5 = true))) ∧
    ((xa_load (xa_store_order xaEmptyArr 4 0 (Entry.value 4)) 4 =
          Entry.empty →
        xa_set_tag (xa_store_order xaEmptyArr 4 0 (Entry.value 4)) 4
            XaTag.tag0 =
          xa_store_order xaEmptyArr 4 0 (Entry.value 4) ∧
        xa_get_tag (xa_set_tag (xa_store_order xaEmptyArr 4 0
          (Entry.value 4)) 4 XaTag.tag0) 4 XaTag.tag0 = false) ∧
      xa_get_tag (xa_set_tag (xa_store_order xaEmptyArr 4 0
          (Entry.value 4)) 4 XaTag.tag0) 5 XaTag.tag0 =
        xa_get_tag (xa_store_order xaEmptyArr 4 0 (Entry.value 4)) 5
          XaTag.tag0 ∧
      xa_get_tag (xa_set_tag (xa_store_order xaEmptyArr 4 0
          (Entry.value 4)) 4 XaTag.tag0) 4 XaTag.tag1 =
        xa_get_tag (xa_store_order xaEmptyArr 4 0 (Entry.value 4)) 4
          XaTag.tag1 ∧
      xa_get_tag (xa_store_order (xa_store_order xaEmptyArr 4 0
          (Entry.value 4)) 4 0 Entry.empty) 4 XaTag.tag0 = false ∧
      (∀ v, v ≠ Entry.empty →
        xa_get_tag (xa_store_order (xa_store_order (xa_store_order
            xaEmptyArr 4 0 (Entry.value 4)) 4 0 Entry.empty) 4 0 v) 4
          XaTag.tag0 = false)) :=
  ⟨⟨by decide, by decide, by decide⟩,
    tag_independence (xa_store_order xaEmptyArr 4 0 (Entry.value 4)) 4 5
      XaTag.tag0 XaTag.tag1 (by decide) (by decide) (by decide)⟩

/-- C6: a tag set on a multi-index entry is observed by a tag query at
every index the entry covers; and storing a multi-index entry over smaller
entries carrying tags gives the resulting entry the union of those tags —
a tag reads true at a covered index exactly when some index of the
overwritten range carried it. -/
theorem multi_tag_union (xa : XArray) (i o : Nat) (v : Entry)
    (j j2 : Nat) (t : XaTag) (hwf : WF xa) (hv : v ≠ Entry.empty)
    (h1 : i ≤ j) (h2 : j < i + 2 ^ o) (h1' : i ≤ j2) (h2' : j2 < i + 2 ^ o) :
    xa_get_tag (xa_set_tag (xa_store_order xa i o v) j t) j2 t = true ∧
    (xa_get_tag (xa_store_order xa i o v) j t = true ↔
      ∃ m, i ≤ m ∧ m < i + 2 ^ o ∧ xa_get_tag xa m t = true) := by
  have hcovj : coversIdx
      (⟨i, o, v, collectTags (xa.ranges.filter (fun r => overlapsB r i o))⟩ :
        XRange) j = true := by
    rw [coversIdx_iff]
    exact ⟨h1, h2⟩
  have hcovj2 : coversIdx
      (⟨i, o, v, collectTags (xa.ranges.filter (fun r => overlapsB r i o))⟩ :
        XRange) j2 = true := by
    rw [coversIdx_iff]
    exact ⟨h1', h2'⟩
  constructor
  · unfold xa_store_order xa_set_tag xa_get_tag
    rw [if_neg hv]
    simp only [List.map_cons]
    rw [find_covers_cons_pos _ _ j2 (by rw [setTagFn_covers]; exact hcovj2)]
    show tagGet (setTagFn j t _).tags t = true
    unfold setTagFn
    rw [hcovj]
    simp only [if_true]
    exact tagGet_tagAdd_self _ t
  · unfold xa_store_order xa_get_tag
    rw [if_neg hv]
    simp only
    rw [find_covers_cons_pos _ _ j hcovj]
    show tagGet (collectTags (xa.ranges.filter (fun r => overlapsB r i o)))
        t = true ↔ _
    rw [tagGet_collectTags, List.any_eq_true]
    constructor
    · rintro ⟨r, hr, ht⟩
      have hmem := (List.mem_filter.mp hr).1
      have hov := (List.mem_filter.mp hr).2
      rw [overlapsB_iff] at hov
      have hro : 0 < 2 ^ r.order := Nat.pos_pow_of_pos _ (by omega)
      have hoo : 0 < 2 ^ o := Nat.pos_pow_of_pos _ (by omega)
      have hm2 : Nat.max r.base i < i + 2 ^ o :=
        Nat.max_lt.mpr ⟨hov.1, by omega⟩
      have hcov : coversIdx r (Nat.max r.base i) = true := by
        rw [coversIdx_iff]
        exact ⟨Nat.le_max_left _ _, Nat.max_lt.mpr ⟨by omega, hov.2⟩⟩
      have hgt := xa_get_tag_of_mem xa r (Nat.max r.base i) t hwf hmem hcov
      refine ⟨Nat.max r.base i, Nat.le_max_right _ _, hm2, ?_⟩
      show xa_get_tag xa (Nat.max r.base i) t = true
      rw [hgt]
      exact ht
    · rintro ⟨m, hm1, hm2, hmt⟩
      obtain ⟨r, hr, hc, ht⟩ := (get_tag_iff xa m t hwf).mp hmt
      refine ⟨r, List.mem_filter.mpr ⟨hr, ?_⟩, ht⟩
      exact overlaps_of_covers_mem r i o m hc hm1 hm2

/-- Witness for C6 at a concrete input, following the test scenario:
single entries at indices 1 and 2 tagged with tag0 and tag1, then an
order-2 entry stored over them. -/
theorem multi_tag_union_witness :
    (WF (xa_set_tag (xa_store_order (xa_set_tag (xa_store_order xaEmptyArr
        1 0 (Entry.value 1)) 1 XaTag.tag0) 2 0 (Entry.value 2)) 2
        XaTag.tag1) ∧
      Entry.value 0 ≠ Entry.empty ∧ 0 ≤ 0 ∧ 0 < 0 + 2 ^ 2 ∧ 0 ≤ 1 ∧
        1 < 0 + 2 ^ 2) ∧
    (xa_get_tag (xa_set_tag (xa_store_order (xa_set_tag (xa_store_order
        (xa_set_tag (xa_store_order xaEmptyArr 1 0 (Entry.value 1)) 1
          XaTag.tag0) 2 0 (Entry.value 2)) 2 XaTag.tag1) 0 2
        (Entry.value 0)) 0 XaTag.tag0) 1 XaTag.tag0 = true ∧
      (xa_get_tag (xa_store_order (xa_set_tag (xa_store_order (xa_set_tag
          (xa_store_order xaEmptyArr 1 0 (Entry.value 1)) 1 XaTag.tag0) 2 0
          (Entry.value 2)) 2 XaTag.tag1) 0 2 (Entry.value 0)) 0
          XaTag.tag0 = true ↔
        ∃ m, 0 ≤ m ∧ m < 0 + 2 ^ 2 ∧
          xa_get_tag (xa_set_tag (xa_store_order (xa_set_tag
            (xa_store_order xaEmptyArr 1 0 (Entry.value 1)) 1 XaTag.tag0) 2
            0 (Entry.value 2)) 2 XaTag.tag1) m XaTag.tag0 = true)) :=
  ⟨⟨by decide, by decide, by decide, by decide, by decide, by decide⟩,
    multi_tag_union (xa_set_tag (xa_store_order (xa_set_tag
        (xa_store_order xaEmptyArr 1 0 (Entry.value 1)) 1 XaTag.tag0) 2 0
        (Entry.value 2)) 2 XaTag.tag1) 0 2 (Entry.value 0) 0 1 XaTag.tag0
      (by decide) (by decide) (by decide) (by decide) (by decide)
      (by decide)⟩

/- ------------------------------------------------------------------ -/
/- Find lemmas and claim C4.                                           -/
/- ------------------------------------------------------------------ -/

theorem listMinN_mem (l : List Nat) (m : Nat) (h : listMinN l = some m) :
    m ∈ l := by
  induction l generalizing m with
  | nil => cases h
  | cons x xs ih =>
    unfold listMinN at h
    cases hx : listMinN xs with
    | none =>
      rw [hx] at h
      cases h
      exact List.mem_cons_self x xs
    | some m2 =>
      rw [hx] at h
      cases h
      by_cases hle : x ≤ m2
      · have hmineq : Nat.min x m2 = x := Nat.min_eq_left hle
        rw [hmineq]
        exact List.mem_cons_self x xs
      · have hmineq : Nat.min x m2 = m2 :=
          Nat.min_eq_right (Nat.le_of_not_le hle)
        rw [hmineq]
        exact List.mem_cons_of_mem x (ih m2 hx)

theorem listMinN_le (l : List Nat) (m : Nat) (h : listMinN l = some m) :
    ∀ x ∈ l, m ≤ x := by
  induction l generalizing m with
  | nil => intro x hx; cases hx
  | cons y ys ih =>
    unfold listMinN at h
    cases hy : listMinN ys with
    | none =>
      rw [hy] at h
      cases h
      intro x hx
      rcases List.mem_cons.mp hx with rfl | hmem
      · exact Nat.le_refl _
      · exfalso
        cases ys with
        | nil => cases hmem
        | cons a b =>
          unfold listMinN at hy
          cases h2 : listMinN b <;> rw [h2] at hy <;> cases hy
    | some m2 =>
      rw [hy] at h
      cases h
      intro x hx
      rcases List.mem_cons.mp hx with rfl | hmem
      · exact Nat.min_le_left _ _
      · exact Nat.le_trans (Nat.min_le_right _ _) (ih m2 hy x hmem)

theorem listMinN_eq_none (l : List Nat) : listMinN l = none ↔ l = [] := by
  cases l with
  | nil => simp [listMinN]
  | cons x xs =>
    simp only [listMinN]
    cases listMinN xs <;> simp

theorem findCandidate_mem_spec (k bound : Nat) (f : XaFilter) (r : XRange)
    (m : Nat) (h : findCandidate k bound f r = some m) :
    m = Nat.max r.base k ∧ m ≤ bound ∧ coversIdx r m = true ∧
      matchesFilter f r = true ∧ k ≤ m := by
  unfold findCandidate at h
  by_cases hcond : (decide (Nat.max r.base k ≤ bound) &&
      decide (Nat.max r.base k < r.base + 2 ^ r.order) &&
      matchesFilter f r) = true
  · rw [if_pos hcond] at h
    cases h
    simp only [Bool.and_eq_true, decide_eq_true_eq] at hcond
    refine ⟨rfl, hcond.1.1, ?_, hcond.2, Nat.le_max_right _ _⟩
    rw [coversIdx_iff]
    exact ⟨Nat.le_max_left _ _, hcond.1.2⟩
  · rw [if_neg hcond] at h
    cases h

theorem candidate_of_match (k bound : Nat) (f : XaFilter) (r : XRange)
    (j : Nat) (hk : k ≤ j) (hb : j ≤ bound) (hc : coversIdx r j = true)
    (hf : matchesFilter f r = true) :
    findCandidate k bound f r = some (Nat.max r.base k) ∧
      Nat.max r.base k ≤ j := by
  rw [coversIdx_iff] at hc
  have hle : Nat.max r.base k ≤ j := Nat.max_le.mpr ⟨hc.1, hk⟩
  have hcond : (decide (Nat.max r.base k ≤ bound) &&
      decide (Nat.max r.base k < r.base + 2 ^ r.order) &&
      matchesFilter f r) = true := by
    simp only [Bool.and_eq_true, decide_eq_true_eq]
    exact ⟨⟨Nat.le_trans hle hb, Nat.lt_of_le_of_lt hle hc.2⟩, hf⟩
  refine ⟨?_, hle⟩
  unfold findCandidate
  rw [if_pos hcond]

theorem matchesAt_iff (xa : XArray) (f : XaFilter) (j : Nat) (hwf : WF xa) :
    matchesAt xa f j = true ↔
      ∃ r ∈ xa.ranges, coversIdx r j = true ∧ matchesFilter f r = true := by
  cases f with
  | present =>
    simp only [matchesAt, matchesFilter, decide_eq_true_eq]
    constructor
    · intro h
      obtain ⟨r, hr, hc⟩ := (load_ne_empty_iff xa j hwf).mp h
      exact ⟨r, hr, hc, trivial⟩
    · rintro ⟨r, hr, hc, h2⟩
      exact (load_ne_empty_iff xa j hwf).mpr ⟨r, hr, hc⟩
  | tagged t =>
    show xa_get_tag xa j t = true ↔ _
    exact get_tag_iff xa j t hwf

/-- C4: find started at index k with the present (or tagged) filter
returns the entry at the smallest matching index at or after k within the
bound, reporting that index; it reports nothing exactly when no index in
the interval matches. -/
theorem find_monotone (xa : XArray) (k bound : Nat) (f : XaFilter)
    (hwf : WF xa) :
    (∀ m e, xa_find xa k bound f = some (m, e) →
      k ≤ m ∧ m ≤ bound ∧ matchesAt xa f m = true ∧ e = xa_load xa m ∧
      ∀ j, k ≤ j → j < m → matchesAt xa f j = false) ∧
    (xa_find xa k bound f = none →
      ∀ j, k ≤ j → j ≤ bound → matchesAt xa f j = false) := by
  constructor
  · intro m e hfind
    unfold xa_find at hfind
    cases hmin : listMinN (xa.ranges.filterMap (findCandidate k bound f))
        with
    | none => rw [hmin] at hfind; cases hfind
    | some m0 =>
      rw [hmin] at hfind
      obtain ⟨hm, he⟩ : m0 = m ∧ xa_load xa m0 = e := by
        simpa [Prod.mk.injEq] using hfind
      subst hm
      subst he
      have hm0mem := listMinN_mem _ _ hmin
      obtain ⟨r, hr, hcand⟩ := List.mem_filterMap.mp hm0mem
      obtain ⟨hmax, hbound, hcov, hfil, hkle⟩ :=
        findCandidate_mem_spec k bound f r m0 hcand
      refine ⟨hkle, hbound, ?_, rfl, ?_⟩
      · exact (matchesAt_iff xa f m0 hwf).mpr ⟨r, hr, hcov, hfil⟩
      · intro j hkj hjm
        cases hmj : matchesAt xa f j with
        | false => rfl
        | true =>
          exfalso
          obtain ⟨r2, hr2, hc2, hf2⟩ := (matchesAt_iff xa f j hwf).mp hmj
          have hjb : j ≤ bound := Nat.le_trans (Nat.le_of_lt hjm) hbound
          obtain ⟨hcand2, hle2⟩ :=
            candidate_of_match k bound f r2 j hkj hjb hc2 hf2
          have hmem2 : Nat.max r2.base k ∈
              xa.ranges.filterMap (findCandidate k bound f) :=
            List.mem_filterMap.mpr ⟨r2, hr2, hcand2⟩
          have hm0le := listMinN_le _ _ hmin _ hmem2
          omega
  · intro hfind j hkj hjb
    unfold xa_find at hfind
    cases hmin : listMinN (xa.ranges.filterMap (findCandidate k bound f))
        with
    | some m0 => rw [hmin] at hfind; cases hfind
    | none =>
      have hnil := (listMinN_eq_none _).mp hmin
      cases hmj : matchesAt xa f j with
      | false => rfl
      | true =>
        exfalso
        obtain ⟨r2, hr2, hc2, hf2⟩ := (matchesAt_iff xa f j hwf).mp hmj
        obtain ⟨hcand2, h3⟩ :=
          candidate_of_match k bound f r2 j hkj hjb hc2 hf2
        have hmem2 : Nat.max r2.base k ∈
            xa.ranges.filterMap (findCandidate k bound f) :=
          List.mem_filterMap.mpr ⟨r2, hr2, hcand2⟩
        rw [hnil] at hmem2
        cases hmem2

/-- The concrete container of the multi-index find test: an order-2 entry
at base 12 and a single entry at 16. -/
def xaFindW : XArray :=
  xa_store_order (xa_store_order xaEmptyArr 12 2 (Entry.value 12)) 16 0
    (Entry.value 16)

/-- Witness for C4 at a concrete input. -/
theorem find_monotone_witness :
    WF xaFindW ∧
    ((∀ m e, xa_find xaFindW 13 1000 XaFilter.present = some (m, e) →
        13 ≤ m ∧ m ≤ 1000 ∧ matchesAt xaFindW XaFilter.present m = true ∧
        e = xa_load xaFindW m ∧
        ∀ j, 13 ≤ j → j < m →
          matchesAt xaFindW XaFilter.present j = false) ∧
      (xa_find xaFindW 13 1000 XaFilter.present = none →
        ∀ j, 13 ≤ j → j ≤ 1000 →
          matchesAt xaFindW XaFilter.present j = false)) :=
  ⟨by decide, find_monotone xaFindW 13 1000 XaFilter.present (by decide)⟩

end XarrayModel
